import Mathlib

/-!
Verification of a generic double-ended queue (deque) implemented on a
dynamically resized circular buffer (package `queue`, file `queue.go`).

The Go code is embedded shallowly:

* `entry T` mirrors `entry[T]` (a stored value plus a `ValueSet` flag);
  the Go zero value of `T` is modelled by `default` from `Inhabited T`.
* `Queue T` mirrors `Queue[T]`: the backing slice `rep` becomes a
  `List (entry T)`; the `int` fields `front`, `back`, `length` are
  modelled as `Nat` (they are non-negative in every reachable state,
  which the invariant `WF` below makes precise).  The one place where a
  Go `int` computation passes through a negative value — `dec 0`, which
  evaluates `(-1) & (len(rep) - 1)` in two's complement — is modelled
  exactly, by performing the masking on `Int` with `Int.land` (Lean's
  two's-complement bitwise AND on unbounded integers, which agrees with
  Go's `&` on values representable in 64 bits) and converting the
  non-negative result back to `Nat`.
* Go's `copy(dst, src)` (copy `min (len dst) (len src)` elements onto a
  prefix of `dst`) is modelled by `goCopy`; slice expressions
  `s[a:b]`, `s[a:]`, `s[:b]` become `(List.drop a s).take (b - a)`,
  `List.drop a s`, `List.take b s`.
* Methods that mutate the receiver become functions returning the new
  state; `PopFront`/`PopBack` return the `(value, ok)` pair together
  with the new state.
* `fmt.Sprintf ("%v", v)` is abstracted by a rendering function
  `f : T → String` supplied to `Queue.String`.
* Go indexing `rep[i]` panics when out of bounds; it is modelled by
  `List.getD` / `List.set` (which default / ignore out of bounds), and
  the bounds themselves are established separately (claim C10), so the
  defaulting branch is never exercised on well-formed states.
-/

/-- Go `entry[T]`: a slot of the backing slice. -/
structure entry (T : Type) where
  Value : T
  ValueSet : Bool
  deriving Repr, DecidableEq

/-- The Go zero value of `entry[T]` (what `make` fills slots with, and what
cleared slots are reset to). -/
def emptyEntry {T : Type} [Inhabited T] : entry T :=
  ⟨default, false⟩

/-- Go `Queue[T]`: backing slice `rep`, cursors `front` and `back`, element
count `length`.  The zero value has `rep = []` (nil slice). -/
structure Queue (T : Type) where
  rep : List (entry T)
  front : Nat
  back : Nat
  length : Nat
  deriving Repr, DecidableEq

/-- The zero `Queue[T]` value (all fields zero, nil slice). -/
def Queue.zero (T : Type) : Queue T :=
  ⟨[], 0, 0, 0⟩

/-- Go `Init`: initializes or clears queue q (capacity-1 slice of zero
entries, all cursors zero).  The Go method mutates `q` and returns it;
here it returns the new state. -/
def Queue.Init {T : Type} [Inhabited T] (_q : Queue T) : Queue T :=
  ⟨List.replicate 1 emptyEntry, 0, 0, 0⟩

/-- Go `New`: `new(Queue[T]).Init()`. -/
def Queue.new (T : Type) [Inhabited T] : Queue T :=
  (Queue.zero T).Init

/-- Go `lazyInit`: initialize the queue when its slice is still nil. -/
def Queue.lazyInit {T : Type} [Inhabited T] (q : Queue T) : Queue T :=
  if q.rep.length = 0 then q.Init else q

/-- Go `Len`. -/
def Queue.Len {T : Type} (q : Queue T) : Nat :=
  q.length

/-- Go `empty`. -/
def Queue.empty {T : Type} (q : Queue T) : Bool :=
  q.length == 0

/-- Go `full`. -/
def Queue.full {T : Type} (q : Queue T) : Bool :=
  q.length == q.rep.length

/-- Go `sparse`: `1 < q.length && q.length < len(q.rep)/4` (integer
division; both operands are non-negative, so Nat division agrees with
Go's truncating division). -/
def Queue.sparse {T : Type} (q : Queue T) : Bool :=
  decide (1 < q.length) && decide (q.length < q.rep.length / 4)

/-- Go `copy(dst, src)`: overwrite a prefix of `dst` with
`min (len dst) (len src)` elements of `src`; the result is the new
contents of `dst`. -/
def goCopy {α : Type} (dst src : List α) : List α :=
  src.take dst.length ++ dst.drop (min dst.length src.length)

/-- Go `resize`: allocate a slice of `size` zero entries, copy the occupied
window into it (one copy when `front < back`, otherwise two), and reset
`front = 0`, `back = length`. -/
def Queue.resize {T : Type} [Inhabited T] (q : Queue T) (size : Nat) : Queue T :=
  let adjusted : List (entry T) := List.replicate size emptyEntry
  let adjusted' :=
    if q.front < q.back then
      goCopy adjusted ((q.rep.drop q.front).take (q.back - q.front))
    else
      let n := min adjusted.length (q.rep.drop q.front).length
      let a1 := goCopy adjusted (q.rep.drop q.front)
      a1.take n ++ goCopy (a1.drop n) (q.rep.take q.back)
  { rep := adjusted', front := 0, back := q.length, length := q.length }

/-- Go `lazyGrow`: double the slice when the queue is full. -/
def Queue.lazyGrow {T : Type} [Inhabited T] (q : Queue T) : Queue T :=
  if q.full then q.resize (q.rep.length * 2) else q

/-- Go `lazyShrink`: halve the slice when the queue is sparse. -/
def Queue.lazyShrink {T : Type} [Inhabited T] (q : Queue T) : Queue T :=
  if q.sparse then q.resize (q.rep.length / 2) else q

/-- Go `inc`: `(i+1) & (len(q.rep)-1)` — two's-complement masking on `int`,
modelled on `Int`.  Both operands are non-negative whenever `len(rep) ≥ 1`,
so the result is non-negative and `toNat` is lossless there. -/
def Queue.inc {T : Type} (q : Queue T) (i : Nat) : Nat :=
  (Int.land ((i : Int) + 1) ((q.rep.length : Int) - 1)).toNat

/-- Go `dec`: `(i-1) & (len(q.rep)-1)`.  At `i = 0` the Go code masks the
two's-complement bits of `-1` (all ones), yielding `len(rep) - 1`;
`Int.land` reproduces that. -/
def Queue.dec {T : Type} (q : Queue T) (i : Nat) : Nat :=
  (Int.land ((i : Int) - 1) ((q.rep.length : Int) - 1)).toNat

/-- Go `Front`: first element and presence flag. -/
def Queue.Front {T : Type} [Inhabited T] (q : Queue T) : T × Bool :=
  if q.empty then (default, false)
  else ((q.rep.getD q.front emptyEntry).Value, true)

/-- Go `Back`: last element and presence flag. -/
def Queue.Back {T : Type} [Inhabited T] (q : Queue T) : T × Bool :=
  if q.empty then (default, false)
  else ((q.rep.getD (q.dec q.back) emptyEntry).Value, true)

/-- Go `PushFront`. -/
def Queue.PushFront {T : Type} [Inhabited T] (q : Queue T) (v : T) : Queue T :=
  let q1 := q.lazyInit
  let q2 := q1.lazyGrow
  let f := q2.dec q2.front
  { q2 with rep := q2.rep.set f ⟨v, true⟩, front := f, length := q2.length + 1 }

/-- Go `PushBack`. -/
def Queue.PushBack {T : Type} [Inhabited T] (q : Queue T) (v : T) : Queue T :=
  let q1 := q.lazyInit
  let q2 := q1.lazyGrow
  { q2 with rep := q2.rep.set q2.back ⟨v, true⟩, back := q2.inc q2.back,
            length := q2.length + 1 }

/-- Go `PopFront`: returns `((value, ok), new state)`. -/
def Queue.PopFront {T : Type} [Inhabited T] (q : Queue T) : (T × Bool) × Queue T :=
  if q.empty then ((default, false), q)
  else
    let v := q.rep.getD q.front emptyEntry
    let q' : Queue T :=
      { q with rep := q.rep.set q.front emptyEntry, front := q.inc q.front,
               length := q.length - 1 }
    ((v.Value, true), q'.lazyShrink)

/-- Go `PopBack`: returns `((value, ok), new state)`. -/
def Queue.PopBack {T : Type} [Inhabited T] (q : Queue T) : (T × Bool) × Queue T :=
  if q.empty then ((default, false), q)
  else
    let b := q.dec q.back
    let v := q.rep.getD b emptyEntry
    let q' : Queue T :=
      { q with rep := q.rep.set b emptyEntry, back := b, length := q.length - 1 }
    ((v.Value, true), q'.lazyShrink)

/-- The loop body of Go `String`: render `n` elements starting at position
`j`, separating consecutive elements by one space (the source writes a
space after element `i` exactly when `i < length - 1`). -/
def Queue.stringAux {T : Type} [Inhabited T] (f : T → String) (q : Queue T) :
    Nat → Nat → String
  | 0, _ => ""
  | n + 1, j =>
    f (q.rep.getD j emptyEntry).Value ++
      (if n = 0 then "" else " " ++ Queue.stringAux f q n (q.inc j))

/-- Go `String`: the elements from `front` to `back`, space-separated,
in square brackets; `f` stands for `fmt.Sprintf ("%v", ·)`. -/
def Queue.String {T : Type} [Inhabited T] (f : T → String) (q : Queue T) : String :=
  "[" ++ Queue.stringAux f q q.length q.front ++ "]"

/-! ### Specification layer -/

/-- The logical occupied window of the queue, as the list of slots read from
`front` by forward wrapping steps. -/
def Queue.window {T : Type} [Inhabited T] (q : Queue T) : List (entry T) :=
  (List.range q.length).map (fun i => q.rep.getD ((q.front + i) % q.rep.length) emptyEntry)

/-- The logical front-to-back element sequence of the queue. -/
def Queue.toList {T : Type} [Inhabited T] (q : Queue T) : List T :=
  q.window.map entry.Value

/-- Position `j` of the backing slice lies in the occupied window. -/
def Queue.inWindow {T : Type} (q : Queue T) (j : Nat) : Prop :=
  ∃ i, i < q.length ∧ j = (q.front + i) % q.rep.length

/-- The representation invariant of the queue: the capacity is a power of
two, the cursors are in range, `back` is `front` plus `length` modulo the
capacity, slots inside the occupied window are marked set, and slots
outside it hold the zero entry. -/
structure Queue.WF {T : Type} [Inhabited T] (q : Queue T) : Prop where
  pow : ∃ k, q.rep.length = 2 ^ k
  front_lt : q.front < q.rep.length
  back_lt : q.back < q.rep.length
  len_le : q.length ≤ q.rep.length
  back_eq : q.back = (q.front + q.length) % q.rep.length
  occ : ∀ j, j < q.rep.length → q.inWindow j →
    (q.rep.getD j emptyEntry).ValueSet = true
  free : ∀ j, j < q.rep.length → ¬ q.inWindow j →
    q.rep.getD j emptyEntry = emptyEntry

/-- States reachable from a freshly constructed queue by the mutating
operations (re-initialization included). -/
inductive Queue.Reachable (T : Type) [Inhabited T] : Queue T → Prop where
  | new : Queue.Reachable T (Queue.new T)
  | init (q : Queue T) : Queue.Reachable T q → Queue.Reachable T q.Init
  | pushFront (q : Queue T) (v : T) : Queue.Reachable T q →
      Queue.Reachable T (q.PushFront v)
  | pushBack (q : Queue T) (v : T) : Queue.Reachable T q →
      Queue.Reachable T (q.PushBack v)
  | popFront (q : Queue T) : Queue.Reachable T q →
      Queue.Reachable T (q.PopFront).2
  | popBack (q : Queue T) : Queue.Reachable T q →
      Queue.Reachable T (q.PopBack).2

/-- Rendering of a list as space-separated items, modelled from the spec's
words: elements in logical order, separated by single spaces. -/
def renderSpec {T : Type} (f : T → String) : List T → String
  | [] => ""
  | [x] => f x
  | x :: y :: xs => f x ++ " " ++ renderSpec f (y :: xs)

/-- Push a whole list to the back, left to right. -/
def pushBackAll {T : Type} [Inhabited T] (q : Queue T) (vs : List T) : Queue T :=
  vs.foldl Queue.PushBack q

/-- Pop `n` elements from the front, collecting the `(value, ok)` results. -/
def popFrontN {T : Type} [Inhabited T] (q : Queue T) : Nat → List (T × Bool) × Queue T
  | 0 => ([], q)
  | n + 1 =>
    let r := q.PopFront
    let rest := popFrontN r.2 n
    (r.1 :: rest.1, rest.2)

/-! ### Masking arithmetic -/

/-- Bitwise AND of two non-negative integers is the Nat bitwise AND. -/
theorem land_ofNat (a b : Nat) : Int.land (a : Int) (b : Int) = ((a &&& b : Nat) : Int) :=
  rfl

/-- Bitwise AND of `-1` (all ones in two's complement) with a non-negative
integer returns that integer. -/
theorem land_neg_one (b : Nat) : Int.land (-1) (b : Int) = (b : Int) := by
  show ((Nat.ldiff b 0 : Nat) : Int) = (b : Int)
  simp [Nat.ldiff, Nat.bitwise]

/-- A well-formed queue has positive capacity. -/
theorem Queue.capacity_pos {T : Type} [Inhabited T] {q : Queue T} (h : q.WF) :
    0 < q.rep.length := by
  obtain ⟨k, hk⟩ := h.pow
  rw [hk]
  exact Nat.pos_pow_of_pos k (by norm_num)

/-- On a power-of-two capacity, `inc` is addition of one modulo the capacity. -/
theorem Queue.inc_eq {T : Type} {q : Queue T} (k : Nat) (hC : q.rep.length = 2 ^ k)
    (i : Nat) : q.inc i = (i + 1) % q.rep.length := by
  have hpos : 0 < q.rep.length := by
    rw [hC]; exact Nat.pos_pow_of_pos k (by norm_num)
  have h1 : ((q.rep.length : Int) - 1) = ((q.rep.length - 1 : Nat) : Int) := by omega
  have h2 : ((i : Int) + 1) = ((i + 1 : Nat) : Int) := by omega
  unfold Queue.inc
  rw [h1, h2, land_ofNat]
  show (i + 1) &&& (q.rep.length - 1) = (i + 1) % q.rep.length
  rw [hC]
  exact Nat.and_pow_two_sub_one_eq_mod (i + 1) k

/-- On a power-of-two capacity, `dec` of an in-range index is subtraction of
one modulo the capacity (wrapping `0` to `capacity - 1`). -/
theorem Queue.dec_eq {T : Type} {q : Queue T} (k : Nat) (hC : q.rep.length = 2 ^ k)
    {i : Nat} (hi : i < q.rep.length) :
    q.dec i = (i + (q.rep.length - 1)) % q.rep.length := by
  have hpos : 0 < q.rep.length := by rw [hC]; exact Nat.pos_pow_of_pos k (by norm_num)
  unfold Queue.dec
  cases i with
  | zero =>
    have h0 : ((0 : Nat) : Int) - 1 = -1 := by omega
    have h1 : ((q.rep.length : Int) - 1) = ((q.rep.length - 1 : Nat) : Int) := by omega
    rw [h0, h1, land_neg_one]
    show q.rep.length - 1 = (0 + (q.rep.length - 1)) % q.rep.length
    rw [Nat.zero_add, Nat.mod_eq_of_lt (by omega)]
  | succ n =>
    have h1 : ((q.rep.length : Int) - 1) = ((q.rep.length - 1 : Nat) : Int) := by omega
    have h2 : ((n + 1 : Nat) : Int) - 1 = ((n : Nat) : Int) := by omega
    rw [h2, h1, land_ofNat]
    show n &&& (q.rep.length - 1) = (n + 1 + (q.rep.length - 1)) % q.rep.length
    have hn : n &&& (q.rep.length - 1) = n % q.rep.length := by
      rw [hC]; exact Nat.and_pow_two_sub_one_eq_mod n k
    have h3 : n + 1 + (q.rep.length - 1) = n + q.rep.length := by omega
    rw [hn, h3, Nat.add_mod_right, Nat.mod_eq_of_lt (by omega)]

/-- `inc` keeps indices within the capacity. -/
theorem Queue.inc_lt {T : Type} {q : Queue T} (k : Nat) (hC : q.rep.length = 2 ^ k)
    (i : Nat) : q.inc i < q.rep.length := by
  rw [Queue.inc_eq k hC i]
  exact Nat.mod_lt _ (by rw [hC]; exact Nat.pos_pow_of_pos k (by norm_num))

/-- `dec` keeps in-range indices within the capacity. -/
theorem Queue.dec_lt {T : Type} {q : Queue T} (k : Nat) (hC : q.rep.length = 2 ^ k)
    {i : Nat} (hi : i < q.rep.length) : q.dec i < q.rep.length := by
  rw [Queue.dec_eq k hC hi]
  exact Nat.mod_lt _ (by rw [hC]; exact Nat.pos_pow_of_pos k (by norm_num))

/-- Cancellation of a common offset under a common modulus. -/
theorem add_mod_inj {C x a b : Nat} (ha : a < C) (hb : b < C)
    (h : (x + a) % C = (x + b) % C) : a = b := by
  have h' : a % C = b % C := Nat.ModEq.add_left_cancel' x h
  rwa [Nat.mod_eq_of_lt ha, Nat.mod_eq_of_lt hb] at h'

/-! ### List access helpers -/

/-- Optional indexing of an in-range position, phrased through `getD`. -/
theorem getElem?_eq_some_getD {α : Type} (l : List α) (i : Nat) (d : α)
    (h : i < l.length) : l[i]? = some (l.getD i d) := by
  rw [List.getD_eq_getElem?_getD, List.getElem?_eq_getElem h]
  rfl

/-- Reduction of a modulus in the second wrap period. -/
theorem mod_eq_sub_of_lt_two {x C : Nat} (h1 : C ≤ x) (h2 : x < 2 * C) :
    x % C = x - C := by
  rw [Nat.mod_eq_sub_mod h1, Nat.mod_eq_of_lt (by omega)]

/-- Copying into a freshly allocated buffer appends the source to padding. -/
theorem goCopy_replicate {α : Type} (src : List α) (size : Nat) (e : α)
    (h : src.length ≤ size) :
    goCopy (List.replicate size e) src = src ++ List.replicate (size - src.length) e := by
  unfold goCopy
  rw [List.length_replicate, List.take_of_length_le h, List.drop_replicate,
    Nat.min_eq_right h]

/-- Copying one all-`e` buffer over another yields an all-`e` buffer. -/
theorem goCopy_replicate_replicate {α : Type} (size m : Nat) (e : α) :
    goCopy (List.replicate size e) (List.replicate m e) = List.replicate size e := by
  unfold goCopy
  rw [List.length_replicate, List.take_replicate, List.length_replicate,
    List.drop_replicate, ← List.replicate_add]
  congr 1
  omega

/-! ### Window shape lemmas -/

/-- Size of the logical window. -/
theorem Queue.window_length {T : Type} [Inhabited T] (q : Queue T) :
    q.window.length = q.length := by
  simp [Queue.window]

/-- Size of the logical element sequence. -/
theorem Queue.toList_length {T : Type} [Inhabited T] (q : Queue T) :
    q.toList.length = q.length := by
  simp [Queue.toList, Queue.window]

/-- Indexing of the logical window inside its range. -/
theorem Queue.window_getElem? {T : Type} [Inhabited T] (q : Queue T) {i : Nat}
    (h : i < q.length) :
    q.window[i]? = some (q.rep.getD ((q.front + i) % q.rep.length) emptyEntry) := by
  simp [Queue.window, List.getElem?_map, List.getElem?_range, h]

/-- Outside its range the logical window has no entries. -/
theorem Queue.window_getElem?_none {T : Type} [Inhabited T] (q : Queue T) {i : Nat}
    (h : q.length ≤ i) : q.window[i]? = none := by
  apply List.getElem?_eq_none
  rw [Queue.window_length]
  exact h

/-- When the occupied region does not wrap, the window is one contiguous
slice of the backing store. -/
theorem Queue.window_nowrap {T : Type} [Inhabited T] (q : Queue T)
    (h : q.front + q.length ≤ q.rep.length) :
    q.window = (q.rep.drop q.front).take q.length := by
  apply List.ext_getElem?
  intro i
  by_cases hi : i < q.length
  · rw [Queue.window_getElem? q hi, List.getElem?_take]
    simp only [hi, if_true]
    rw [List.getElem?_drop]
    have hfi : q.front + i < q.rep.length := by omega
    rw [Nat.mod_eq_of_lt hfi]
    exact (getElem?_eq_some_getD _ _ _ hfi).symm
  · rw [Queue.window_getElem?_none q (by omega)]
    apply (List.getElem?_eq_none _).symm
    rw [List.length_take, List.length_drop]
    omega

/-- When the occupied region wraps, the window is the tail piece of the
backing store followed by its head piece. -/
theorem Queue.window_wrap {T : Type} [Inhabited T] (q : Queue T)
    (hfl : q.front < q.rep.length) (h : q.rep.length ≤ q.front + q.length)
    (hlen : q.length ≤ q.rep.length) :
    q.window = q.rep.drop q.front ++ q.rep.take (q.front + q.length - q.rep.length) := by
  have hb : q.front + q.length - q.rep.length ≤ q.rep.length := by omega
  apply List.ext_getElem?
  intro i
  by_cases hi : i < q.length
  · rw [Queue.window_getElem? q hi]
    by_cases him : i < q.rep.length - q.front
    · rw [List.getElem?_append, List.length_drop, if_pos (by omega)]
      rw [List.getElem?_drop]
      have hfi : q.front + i < q.rep.length := by omega
      rw [Nat.mod_eq_of_lt hfi]
      exact (getElem?_eq_some_getD _ _ _ hfi).symm
    · rw [List.getElem?_append, List.length_drop, if_neg (by omega)]
      rw [List.getElem?_take]
      have hlt : i - (q.rep.length - q.front) < q.front + q.length - q.rep.length := by
        omega
      simp only [hlt, if_true]
      have hmod : (q.front + i) % q.rep.length = i - (q.rep.length - q.front) := by
        rw [mod_eq_sub_of_lt_two (by omega) (by omega)]
        omega
      rw [hmod]
      exact (getElem?_eq_some_getD _ _ _ (by omega)).symm
  · rw [Queue.window_getElem?_none q (by omega)]
    apply (List.getElem?_eq_none _).symm
    rw [List.length_append, List.length_drop, List.length_take]
    omega

/-! ### Resize characterization -/

/-- With no elements, every slot of a queue satisfying the free-slot clause
is the zero entry. -/
theorem Queue.rep_eq_replicate_of_empty {T : Type} [Inhabited T] {q : Queue T}
    (hfree : ∀ j, j < q.rep.length → ¬ q.inWindow j →
      q.rep.getD j emptyEntry = emptyEntry)
    (hlen : q.length = 0) :
    q.rep = List.replicate q.rep.length emptyEntry := by
  apply List.ext_getElem?
  intro i
  by_cases hi : i < q.rep.length
  · rw [getElem?_eq_some_getD q.rep i emptyEntry hi]
    rw [hfree i hi (by rintro ⟨j, hj, _⟩; omega)]
    rw [List.getElem?_replicate]
    simp [hi]
  · rw [List.getElem?_eq_none (le_of_not_lt hi),
      List.getElem?_eq_none (by rw [List.length_replicate]; omega)]

/-- The backing store after a resize: the logical window followed by zero
padding.  This holds for any target size of at least `length` (the code
only calls it with strictly larger sizes). -/
theorem Queue.resize_rep {T : Type} [Inhabited T] {q : Queue T}
    (hfl : q.front < q.rep.length) (hbl : q.back < q.rep.length)
    (hlen : q.length ≤ q.rep.length)
    (hback : q.back = (q.front + q.length) % q.rep.length)
    (hfree : ∀ j, j < q.rep.length → ¬ q.inWindow j →
      q.rep.getD j emptyEntry = emptyEntry)
    {size : Nat} (hsize : q.length ≤ size) :
    (q.resize size).rep = q.window ++ List.replicate (size - q.length) emptyEntry := by
  show (if q.front < q.back then
      goCopy (List.replicate size emptyEntry) ((q.rep.drop q.front).take (q.back - q.front))
    else
      (goCopy (List.replicate size emptyEntry) (q.rep.drop q.front)).take
          (min (List.replicate size (emptyEntry : entry T)).length (q.rep.drop q.front).length) ++
        goCopy ((goCopy (List.replicate size emptyEntry) (q.rep.drop q.front)).drop
          (min (List.replicate size (emptyEntry : entry T)).length (q.rep.drop q.front).length))
          (q.rep.take q.back)) =
    q.window ++ List.replicate (size - q.length) emptyEntry
  by_cases hlt : q.front < q.back
  · rw [if_pos hlt]
    have hnw : q.front + q.length < q.rep.length ∧ q.back = q.front + q.length := by
      by_cases hw : q.front + q.length < q.rep.length
      · rw [Nat.mod_eq_of_lt hw] at hback
        exact ⟨hw, hback⟩
      · have := mod_eq_sub_of_lt_two (le_of_not_lt hw)
          (show q.front + q.length < 2 * q.rep.length by omega)
        rw [this] at hback
        omega
    have hslice : ((q.rep.drop q.front).take (q.back - q.front)).length = q.length := by
      rw [List.length_take, List.length_drop]
      omega
    rw [goCopy_replicate _ _ _ (by rw [hslice]; exact hsize), hslice]
    have hbf : q.back - q.front = q.length := by omega
    rw [hbf, ← Queue.window_nowrap q (by omega)]
  · rw [if_neg hlt]
    by_cases h0 : q.length = 0
    · have hrep := Queue.rep_eq_replicate_of_empty hfree h0
      have hwin : q.window = [] := by
        simp [Queue.window, h0]
      rw [hwin, hrep, List.drop_replicate, List.take_replicate,
        goCopy_replicate_replicate, List.length_replicate, List.length_replicate,
        List.take_replicate, List.drop_replicate, goCopy_replicate_replicate,
        ← List.replicate_add, List.nil_append, h0]
      congr 1
      omega
    · have hw : q.rep.length ≤ q.front + q.length := by
        by_contra hlt2
        rw [Nat.mod_eq_of_lt (by omega)] at hback
        omega
      have hback' : q.back = q.front + q.length - q.rep.length := by
        rw [hback, mod_eq_sub_of_lt_two hw (by omega)]
      have hdroplen : (q.rep.drop q.front).length = q.rep.length - q.front := by
        rw [List.length_drop]
      have hm_le : q.rep.length - q.front ≤ size := by omega
      rw [goCopy_replicate _ _ _ (by rw [hdroplen]; exact hm_le)]
      rw [List.length_replicate, hdroplen, Nat.min_eq_right hm_le]
      rw [show q.rep.length - q.front = (q.rep.drop q.front).length from hdroplen.symm]
      rw [List.take_left, List.drop_left]
      have htakelen : (q.rep.take q.back).length = q.back := by
        rw [List.length_take]
        omega
      rw [hdroplen]
      rw [goCopy_replicate _ _ _ (by rw [htakelen]; omega), htakelen]
      rw [Queue.window_wrap q hfl hw hlen, ← hback']
      rw [List.append_assoc]
      congr 3
      omega

/-- Cursors and count after a resize. -/
theorem Queue.resize_cursors {T : Type} [Inhabited T] (q : Queue T) (size : Nat) :
    (q.resize size).front = 0 ∧ (q.resize size).back = q.length ∧
      (q.resize size).length = q.length :=
  ⟨rfl, rfl, rfl⟩

/-- Any slot of an all-`e` buffer reads `e`. -/
theorem getD_replicate {α : Type} (n i : Nat) (x : α) :
    (List.replicate n x).getD i x = x := by
  simp only [List.getD_eq_getElem?_getD, List.getElem?_replicate]
  split <;> rfl

/-- Capacity after a resize is exactly the requested size. -/
theorem Queue.resize_rep_length {T : Type} [Inhabited T] {q : Queue T}
    (h : q.WF) {size : Nat} (hsize : q.length ≤ size) :
    (q.resize size).rep.length = size := by
  rw [Queue.resize_rep h.front_lt h.back_lt h.len_le h.back_eq h.free hsize,
    List.length_append, List.length_replicate, Queue.window_length]
  omega

/-- A resize to any size of at least `length` preserves the logical window. -/
theorem Queue.resize_window {T : Type} [Inhabited T] {q : Queue T}
    (h : q.WF) {size : Nat} (hsize : q.length ≤ size) :
    (q.resize size).window = q.window := by
  have hrep := Queue.resize_rep h.front_lt h.back_lt h.len_le h.back_eq h.free hsize
  have hreplen := Queue.resize_rep_length h hsize
  apply List.ext_getElem?
  intro i
  by_cases hi : i < q.length
  · have hi2 : i < (q.resize size).length := hi
    rw [Queue.window_getElem? _ hi2, Queue.window_getElem? q hi]
    have hisize : i < size := by omega
    have hmod : ((q.resize size).front + i) % (q.resize size).rep.length = i := by
      rw [hreplen]
      show (0 + i) % size = i
      rw [Nat.zero_add, Nat.mod_eq_of_lt hisize]
    rw [hmod, hrep, List.getD_append _ _ _ _ (by rw [Queue.window_length]; exact hi)]
    congr 1
    rw [List.getD_eq_getElem?_getD, Queue.window_getElem? q hi]
    rfl
  · rw [Queue.window_getElem?_none (q.resize size)
        (show (q.resize size).length ≤ i from le_of_not_lt hi),
      Queue.window_getElem?_none q (le_of_not_lt hi)]

/-- A resize to any size of at least `length` preserves the logical
element sequence. -/
theorem Queue.resize_toList {T : Type} [Inhabited T] {q : Queue T}
    (h : q.WF) {size : Nat} (hsize : q.length ≤ size) :
    (q.resize size).toList = q.toList := by
  unfold Queue.toList
  rw [Queue.resize_window h hsize]

/-- A resize to a power-of-two size strictly above `length` yields a
well-formed state. -/
theorem Queue.resize_WF {T : Type} [Inhabited T] {q : Queue T}
    (h : q.WF) {size : Nat} (hsize : q.length < size) (m : Nat)
    (hm : size = 2 ^ m) : (q.resize size).WF := by
  have hle : q.length ≤ size := le_of_lt hsize
  have hrep := Queue.resize_rep h.front_lt h.back_lt h.len_le h.back_eq h.free hle
  have hreplen := Queue.resize_rep_length h hle
  have hlen2 : (q.resize size).length = q.length := rfl
  have hwin : ∀ j, j < size → ((q.resize size).inWindow j ↔ j < q.length) := by
    intro j hj
    constructor
    · rintro ⟨i, hi, rfl⟩
      rw [hlen2] at hi
      have : ((q.resize size).front + i) % (q.resize size).rep.length = i := by
        rw [hreplen]
        show (0 + i) % size = i
        rw [Nat.zero_add, Nat.mod_eq_of_lt (by omega)]
      omega
    · intro hjl
      refine ⟨j, hjl, ?_⟩
      rw [hreplen]
      show j = (0 + j) % size
      rw [Nat.zero_add, Nat.mod_eq_of_lt (by omega)]
  constructor
  · exact ⟨m, by rw [hreplen, hm]⟩
  · rw [hreplen]
    show 0 < size
    omega
  · rw [hreplen]
    exact hsize
  · rw [hreplen]
    exact hle
  · rw [hreplen]
    show q.length = (0 + q.length) % size
    rw [Nat.zero_add, Nat.mod_eq_of_lt hsize]
  · intro j hj hw
    rw [hreplen] at hj
    have hjl : j < q.length := (hwin j hj).1 hw
    rw [hrep, List.getD_append _ _ _ _ (by rw [Queue.window_length]; exact hjl)]
    have hgd : q.window.getD j emptyEntry =
        q.rep.getD ((q.front + j) % q.rep.length) emptyEntry := by
      rw [List.getD_eq_getElem?_getD, Queue.window_getElem? q hjl]
      rfl
    rw [hgd]
    apply h.occ
    · exact Nat.mod_lt _ (Queue.capacity_pos h)
    · exact ⟨j, hjl, rfl⟩
  · intro j hj hw
    rw [hreplen] at hj
    have hjl : ¬ j < q.length := fun hc => hw ((hwin j hj).2 hc)
    rw [hrep, List.getD_append_right _ _ _ _ (by rw [Queue.window_length]; omega)]
    rw [Queue.window_length]
    exact getD_replicate _ _ _

/-! ### Growth and shrink wrappers -/

/-- Unfolding `full` to a proposition. -/
theorem Queue.full_iff {T : Type} (q : Queue T) :
    q.full = true ↔ q.length = q.rep.length := by
  unfold Queue.full
  exact beq_iff_eq

/-- Unfolding `sparse` to a proposition. -/
theorem Queue.sparse_iff {T : Type} (q : Queue T) :
    q.sparse = true ↔ 1 < q.length ∧ q.length < q.rep.length / 4 := by
  unfold Queue.sparse
  simp

/-- Unfolding `empty` to a proposition. -/
theorem Queue.empty_iff {T : Type} (q : Queue T) :
    q.empty = true ↔ q.length = 0 := by
  unfold Queue.empty
  exact beq_iff_eq

/-- On a well-formed (hence allocated) queue, `lazyInit` is the identity. -/
theorem Queue.lazyInit_of_WF {T : Type} [Inhabited T] {q : Queue T} (h : q.WF) :
    q.lazyInit = q := by
  unfold Queue.lazyInit
  rw [if_neg]
  have := Queue.capacity_pos h
  omega

/-- Behavior of `lazyGrow` on a well-formed queue: well-formedness and the
window are preserved, the result is not full, and the capacity doubles
exactly when the queue was full. -/
theorem Queue.lazyGrow_spec {T : Type} [Inhabited T] {q : Queue T} (h : q.WF) :
    (q.lazyGrow).WF ∧ q.lazyGrow.window = q.window ∧
      q.lazyGrow.length = q.length ∧
      q.lazyGrow.length < q.lazyGrow.rep.length ∧
      q.lazyGrow.rep.length = (if q.full then q.rep.length * 2 else q.rep.length) := by
  obtain ⟨k, hk⟩ := h.pow
  have hpos := Queue.capacity_pos h
  unfold Queue.lazyGrow
  by_cases hf : q.full = true
  · rw [if_pos hf, if_pos hf]
    have hlen : q.length = q.rep.length := (Queue.full_iff q).1 hf
    have hsz : q.length < q.rep.length * 2 := by omega
    have hWF := Queue.resize_WF h hsz (k + 1) (by rw [hk]; ring)
    refine ⟨hWF, Queue.resize_window h (le_of_lt hsz), rfl, ?_, ?_⟩
    · rw [Queue.resize_rep_length h (le_of_lt hsz)]
      exact hsz
    · exact Queue.resize_rep_length h (le_of_lt hsz)
  · rw [if_neg hf, if_neg hf]
    have : q.length ≠ q.rep.length := fun hc => hf ((Queue.full_iff q).2 hc)
    exact ⟨h, rfl, rfl, lt_of_le_of_ne h.len_le this, rfl⟩

/-- Behavior of `lazyShrink` on a well-formed queue: well-formedness and
the window are preserved, and the capacity halves exactly when the queue
was sparse. -/
theorem Queue.lazyShrink_spec {T : Type} [Inhabited T] {q : Queue T} (h : q.WF) :
    (q.lazyShrink).WF ∧ q.lazyShrink.window = q.window ∧
      q.lazyShrink.length = q.length ∧
      q.lazyShrink.rep.length = (if q.sparse then q.rep.length / 2 else q.rep.length) := by
  obtain ⟨k, hk⟩ := h.pow
  unfold Queue.lazyShrink
  by_cases hs : q.sparse = true
  · rw [if_pos hs, if_pos hs]
    obtain ⟨h1, h2⟩ := (Queue.sparse_iff q).1 hs
    have hC12 : 12 ≤ q.rep.length := by omega
    have hkpos : k ≠ 0 := by
      rintro rfl
      rw [hk] at hC12
      simp at hC12
    have hhalf : q.rep.length / 2 = 2 ^ (k - 1) := by
      have h2k : q.rep.length = 2 ^ (k - 1) * 2 := by
        rw [hk, ← pow_succ]
        congr 1
        omega
      rw [h2k]
      exact Nat.mul_div_cancel _ (by norm_num)
    have hlt : q.length < q.rep.length / 2 := by omega
    refine ⟨Queue.resize_WF h hlt (k - 1) hhalf, Queue.resize_window h (le_of_lt hlt),
      rfl, ?_⟩
    rw [Queue.resize_rep_length h (le_of_lt hlt)]
  · rw [if_neg hs, if_neg hs]
    exact ⟨h, rfl, rfl, rfl⟩

/-- A cleared queue (the result of `Init`) is well-formed. -/
theorem Queue.Init_WF {T : Type} [Inhabited T] (q : Queue T) : (q.Init).WF := by
  refine ⟨⟨0, rfl⟩, Nat.zero_lt_one, Nat.zero_lt_one, Nat.zero_le _, rfl, ?_, ?_⟩
  · rintro j hj ⟨i, hi, _⟩
    exact absurd hi (Nat.not_lt_zero i)
  · intro j hj _
    have hj0 : j = 0 := Nat.lt_one_iff.1 hj
    subst hj0
    rfl

/-- A freshly constructed queue is well-formed. -/
theorem Queue.WF_new (T : Type) [Inhabited T] : (Queue.new T).WF :=
  Queue.Init_WF (Queue.zero T)

/-! ### Push and pop specifications -/

/-- Reading back a slot just written. -/
theorem getD_set_self {α : Type} (l : List α) {i : Nat} (x d : α) (h : i < l.length) :
    (l.set i x).getD i d = x := by
  rw [List.getD_eq_getElem?_getD, List.getElem?_set_self (by omega)]
  simp [h]

/-- Reading a slot other than the one just written. -/
theorem getD_set_ne {α : Type} (l : List α) {i j : Nat} (x d : α) (h : i ≠ j) :
    (l.set i x).getD j d = l.getD j d := by
  rw [List.getD_eq_getElem?_getD, List.getElem?_set_ne h, ← List.getD_eq_getElem?_getD]

/-- In a not-full well-formed queue, the `back` slot is outside the window. -/
theorem Queue.back_not_inWindow {T : Type} [Inhabited T] {g : Queue T} (hg : g.WF)
    (hlt : g.length < g.rep.length) : ¬ g.inWindow g.back := by
  rintro ⟨i, hi, hieq⟩
  rw [hg.back_eq] at hieq
  have hiC : i < g.rep.length := lt_of_lt_of_le hi hg.len_le
  have := add_mod_inj hlt hiC hieq
  omega

/-- Effect of the insertion step of `PushBack` on a well-formed, not-full
state: the new entry is appended to the logical window and well-formedness
is preserved. -/
theorem Queue.setBack_spec {T : Type} [Inhabited T] {g : Queue T} (hg : g.WF)
    (hlt : g.length < g.rep.length) (v : T) :
    (Queue.mk (g.rep.set g.back ⟨v, true⟩) g.front (g.inc g.back) (g.length + 1)).WF ∧
      (Queue.mk (g.rep.set g.back ⟨v, true⟩) g.front (g.inc g.back) (g.length + 1)).window
        = g.window ++ [⟨v, true⟩] := by
  obtain ⟨k, hk⟩ := hg.pow
  have hpos : 0 < g.rep.length := Queue.capacity_pos hg
  set r : Queue T :=
    Queue.mk (g.rep.set g.back ⟨v, true⟩) g.front (g.inc g.back) (g.length + 1) with hr
  have hrl : r.rep.length = g.rep.length := by rw [hr]; simp
  have hrf : r.front = g.front := rfl
  have hrlen : r.length = g.length + 1 := rfl
  have hback : r.back = (g.back + 1) % g.rep.length := by
    show g.inc g.back = _
    exact Queue.inc_eq k hk g.back
  have hat : r.rep.getD g.back emptyEntry = ⟨v, true⟩ :=
    getD_set_self _ _ _ hg.back_lt
  have hne : ∀ j, j ≠ g.back → r.rep.getD j emptyEntry = g.rep.getD j emptyEntry :=
    fun j hj => getD_set_ne _ _ _ (fun hc => hj hc.symm)
  have hwback : (g.front + g.length) % g.rep.length = g.back := hg.back_eq.symm
  have hmem_ne : ∀ i, i < g.length → (g.front + i) % g.rep.length ≠ g.back := by
    intro i hi hc
    exact Queue.back_not_inWindow hg hlt ⟨i, hi, hc.symm⟩
  have hconv : ∀ i : Nat, (r.front + i) % r.rep.length = (g.front + i) % g.rep.length := by
    intro i
    rw [hrf, hrl]
  have hwin : r.window = g.window ++ [⟨v, true⟩] := by
    apply List.ext_getElem?
    intro i
    rcases lt_trichotomy i g.length with hi | hi | hi
    · have hi' : i < r.length := by rw [hrlen]; omega
      rw [Queue.window_getElem? r hi', List.getElem?_append, Queue.window_length,
        if_pos hi, Queue.window_getElem? g hi]
      rw [hconv i, hne _ (hmem_ne i hi)]
    · have hi' : i < r.length := by rw [hrlen]; omega
      rw [Queue.window_getElem? r hi', List.getElem?_append, Queue.window_length,
        if_neg (by omega), hi, Nat.sub_self, hconv g.length, hwback, hat]
      rfl
    · rw [Queue.window_getElem?_none r (by rw [hrlen]; omega),
        List.getElem?_eq_none (by rw [List.length_append, Queue.window_length]; simp; omega)]
  refine ⟨?_, hwin⟩
  constructor
  · exact ⟨k, by rw [hrl, hk]⟩
  · rw [hrl, hrf]
    exact hg.front_lt
  · rw [hrl, hback]
    exact Nat.mod_lt _ hpos
  · rw [hrl, hrlen]
    omega
  · rw [hback, hrl, hrf, hrlen, hg.back_eq, Nat.mod_add_mod]
    have hadd : g.front + g.length + 1 = g.front + (g.length + 1) := by omega
    rw [hadd]
  · intro j hj hw
    obtain ⟨i, hi, hj_eq⟩ := hw
    rw [hconv i] at hj_eq
    rw [hrlen] at hi
    rcases Nat.lt_or_ge i g.length with hilt | hige
    · rw [hj_eq, hne _ (hmem_ne i hilt)]
      exact hg.occ _ (Nat.mod_lt _ hpos) ⟨i, hilt, rfl⟩
    · have hieq : i = g.length := by omega
      subst hieq
      rw [hj_eq, hwback, hat]
  · intro j hj hnw
    have hjC : j < g.rep.length := by rw [hrl] at hj; exact hj
    have hjb : j ≠ g.back := by
      intro hc
      apply hnw
      refine ⟨g.length, by rw [hrlen]; omega, ?_⟩
      rw [hconv g.length, hwback, hc]
    rw [hne _ hjb]
    refine hg.free _ hjC ?_
    rintro ⟨i, hi, hieq⟩
    exact hnw ⟨i, by rw [hrlen]; omega, by rw [hconv i]; exact hieq⟩

/-- Effect of the insertion step of `PushFront` on a well-formed, not-full
state: the new entry is prepended to the logical window and
well-formedness is preserved. -/
theorem Queue.setFront_spec {T : Type} [Inhabited T] {g : Queue T} (hg : g.WF)
    (hlt : g.length < g.rep.length) (v : T) :
    (Queue.mk (g.rep.set (g.dec g.front) ⟨v, true⟩) (g.dec g.front) g.back
        (g.length + 1)).WF ∧
      (Queue.mk (g.rep.set (g.dec g.front) ⟨v, true⟩) (g.dec g.front) g.back
        (g.length + 1)).window = ⟨v, true⟩ :: g.window := by
  obtain ⟨k, hk⟩ := hg.pow
  have hpos : 0 < g.rep.length := Queue.capacity_pos hg
  have hf : g.dec g.front = (g.front + (g.rep.length - 1)) % g.rep.length :=
    Queue.dec_eq k hk hg.front_lt
  have hfC : g.dec g.front < g.rep.length := by
    rw [hf]
    exact Nat.mod_lt _ hpos
  set r : Queue T :=
    Queue.mk (g.rep.set (g.dec g.front) ⟨v, true⟩) (g.dec g.front) g.back
      (g.length + 1) with hr
  have hrl : r.rep.length = g.rep.length := by rw [hr]; simp
  have hrf : r.front = g.dec g.front := rfl
  have hrb : r.back = g.back := rfl
  have hrlen : r.length = g.length + 1 := rfl
  have hat : r.rep.getD (g.dec g.front) emptyEntry = ⟨v, true⟩ :=
    getD_set_self _ _ _ hfC
  have hne : ∀ j, j ≠ g.dec g.front →
      r.rep.getD j emptyEntry = g.rep.getD j emptyEntry :=
    fun j hj => getD_set_ne _ _ _ (fun hc => hj hc.symm)
  have hfnw : ¬ g.inWindow (g.dec g.front) := by
    rintro ⟨i, hi, hieq⟩
    rw [hf] at hieq
    have := add_mod_inj (x := g.front) (by omega) (by omega) hieq.symm
    omega
  have hmem_ne : ∀ i, i < g.length → (g.front + i) % g.rep.length ≠ g.dec g.front := by
    intro i hi hc
    exact hfnw ⟨i, hi, hc.symm⟩
  have hconv0 : (r.front + 0) % r.rep.length = g.dec g.front := by
    rw [hrf, hrl, Nat.add_zero, Nat.mod_eq_of_lt hfC]
  have hconv : ∀ i : Nat, (r.front + (i + 1)) % r.rep.length =
      (g.front + i) % g.rep.length := by
    intro i
    rw [hrf, hrl, hf, Nat.mod_add_mod]
    have : g.front + (g.rep.length - 1) + (i + 1) = g.front + i + g.rep.length := by
      omega
    rw [this, Nat.add_mod_right]
  have hwin : r.window = ⟨v, true⟩ :: g.window := by
    apply List.ext_getElem?
    intro i
    cases i with
    | zero =>
      rw [Queue.window_getElem? r (by rw [hrlen]; omega), List.getElem?_cons_zero,
        hconv0, hat]
    | succ i' =>
      by_cases hi' : i' < g.length
      · rw [Queue.window_getElem? r (by rw [hrlen]; omega), List.getElem?_cons_succ,
          Queue.window_getElem? g hi', hconv i', hne _ (hmem_ne i' hi')]
      · rw [Queue.window_getElem?_none r (by rw [hrlen]; omega),
          List.getElem?_cons_succ, Queue.window_getElem?_none g (by omega)]
  refine ⟨?_, hwin⟩
  constructor
  · exact ⟨k, by rw [hrl, hk]⟩
  · rw [hrl, hrf]
    exact hfC
  · rw [hrl, hrb]
    exact hg.back_lt
  · rw [hrl, hrlen]
    omega
  · rw [hrb, hrl, hrf, hrlen, hf, Nat.mod_add_mod]
    have : g.front + (g.rep.length - 1) + (g.length + 1) =
        g.front + g.length + g.rep.length := by omega
    rw [this, Nat.add_mod_right, ← hg.back_eq]
  · intro j hj hw
    obtain ⟨i, hi, hj_eq⟩ := hw
    rw [hrlen] at hi
    cases i with
    | zero =>
      rw [hconv0] at hj_eq
      rw [hj_eq, hat]
    | succ i' =>
      rw [hconv i'] at hj_eq
      have hi'' : i' < g.length := by omega
      rw [hj_eq, hne _ (hmem_ne i' hi'')]
      exact hg.occ _ (Nat.mod_lt _ hpos) ⟨i', hi'', rfl⟩
  · intro j hj hnw
    have hjC : j < g.rep.length := by rw [hrl] at hj; exact hj
    have hjf : j ≠ g.dec g.front := by
      intro hc
      exact hnw ⟨0, by rw [hrlen]; omega, by rw [hconv0, hc]⟩
    rw [hne _ hjf]
    refine hg.free _ hjC ?_
    rintro ⟨i, hi, hieq⟩
    exact hnw ⟨i + 1, by rw [hrlen]; omega, by rw [hconv i]; exact hieq⟩

/-- Full specification of `PushBack` on a well-formed queue. -/
theorem Queue.PushBack_spec {T : Type} [Inhabited T] {q : Queue T} (h : q.WF) (v : T) :
    (q.PushBack v).WF ∧ (q.PushBack v).window = q.window ++ [⟨v, true⟩] ∧
      (q.PushBack v).length = q.length + 1 ∧
      (q.PushBack v).length ≤ (q.PushBack v).rep.length ∧
      (q.PushBack v).rep.length =
        (if q.full then q.rep.length * 2 else q.rep.length) := by
  obtain ⟨hgWF, hgw, hgl, hglt, hgcap⟩ := Queue.lazyGrow_spec h
  have hPB : q.PushBack v = Queue.mk
      ((q.lazyGrow).rep.set (q.lazyGrow).back ⟨v, true⟩) (q.lazyGrow).front
      ((q.lazyGrow).inc (q.lazyGrow).back) ((q.lazyGrow).length + 1) := by
    unfold Queue.PushBack
    rw [Queue.lazyInit_of_WF h]
  obtain ⟨hWF, hwin⟩ := Queue.setBack_spec hgWF hglt v
  rw [hPB]
  refine ⟨hWF, ?_, ?_, ?_, ?_⟩
  · rw [hwin, hgw]
  · show (q.lazyGrow).length + 1 = q.length + 1
    rw [hgl]
  · show (q.lazyGrow).length + 1 ≤ ((q.lazyGrow).rep.set (q.lazyGrow).back ⟨v, true⟩).length
    rw [List.length_set]
    omega
  · show ((q.lazyGrow).rep.set (q.lazyGrow).back ⟨v, true⟩).length = _
    rw [List.length_set]
    exact hgcap

/-- Full specification of `PushFront` on a well-formed queue. -/
theorem Queue.PushFront_spec {T : Type} [Inhabited T] {q : Queue T} (h : q.WF) (v : T) :
    (q.PushFront v).WF ∧ (q.PushFront v).window = ⟨v, true⟩ :: q.window ∧
      (q.PushFront v).length = q.length + 1 ∧
      (q.PushFront v).length ≤ (q.PushFront v).rep.length ∧
      (q.PushFront v).rep.length =
        (if q.full then q.rep.length * 2 else q.rep.length) := by
  obtain ⟨hgWF, hgw, hgl, hglt, hgcap⟩ := Queue.lazyGrow_spec h
  have hPF : q.PushFront v = Queue.mk
      ((q.lazyGrow).rep.set ((q.lazyGrow).dec (q.lazyGrow).front) ⟨v, true⟩)
      ((q.lazyGrow).dec (q.lazyGrow).front) (q.lazyGrow).back
      ((q.lazyGrow).length + 1) := by
    unfold Queue.PushFront
    rw [Queue.lazyInit_of_WF h]
  obtain ⟨hWF, hwin⟩ := Queue.setFront_spec hgWF hglt v
  rw [hPF]
  refine ⟨hWF, ?_, ?_, ?_, ?_⟩
  · rw [hwin, hgw]
  · show (q.lazyGrow).length + 1 = q.length + 1
    rw [hgl]
  · show (q.lazyGrow).length + 1 ≤
      ((q.lazyGrow).rep.set ((q.lazyGrow).dec (q.lazyGrow).front) ⟨v, true⟩).length
    rw [List.length_set]
    omega
  · show ((q.lazyGrow).rep.set ((q.lazyGrow).dec (q.lazyGrow).front) ⟨v, true⟩).length = _
    rw [List.length_set]
    exact hgcap

/-- Full specification of `PopFront` on a well-formed nonempty queue: it
returns the head of the logical sequence with the presence flag set, drops
it from the window, and shrinks the capacity exactly when the remaining
queue is sparse. -/
theorem Queue.PopFront_spec {T : Type} [Inhabited T] {q : Queue T} (h : q.WF)
    (h0 : 0 < q.length) :
    (q.PopFront).1 = ((q.window.getD 0 emptyEntry).Value, true) ∧
      (q.PopFront).2.WF ∧ (q.PopFront).2.window = q.window.drop 1 ∧
      (q.PopFront).2.length = q.length - 1 ∧
      (q.PopFront).2.rep.length =
        (if 1 < q.length - 1 ∧ q.length - 1 < q.rep.length / 4 then q.rep.length / 2
          else q.rep.length) := by
  obtain ⟨k, hk⟩ := h.pow
  have hpos : 0 < q.rep.length := Queue.capacity_pos h
  have hne : ¬ (q.empty = true) :=
    fun hc => absurd ((Queue.empty_iff q).1 hc) (by omega)
  have hPF : q.PopFront = (((q.rep.getD q.front emptyEntry).Value, true),
      (Queue.mk (q.rep.set q.front emptyEntry) (q.inc q.front) q.back
        (q.length - 1)).lazyShrink) := by
    unfold Queue.PopFront
    rw [if_neg hne]
  set p : Queue T :=
    Queue.mk (q.rep.set q.front emptyEntry) (q.inc q.front) q.back (q.length - 1)
    with hp
  have hpl : p.rep.length = q.rep.length := by rw [hp]; simp
  have hplen : p.length = q.length - 1 := rfl
  have hpb : p.back = q.back := rfl
  have hpf : p.front = (q.front + 1) % q.rep.length := Queue.inc_eq k hk q.front
  have hfmod : (q.front + 0) % q.rep.length = q.front := by
    rw [Nat.add_zero, Nat.mod_eq_of_lt h.front_lt]
  have hat : p.rep.getD q.front emptyEntry = emptyEntry :=
    getD_set_self _ _ _ h.front_lt
  have hnef : ∀ j, j ≠ q.front → p.rep.getD j emptyEntry = q.rep.getD j emptyEntry :=
    fun j hj => getD_set_ne _ _ _ (fun hc => hj hc.symm)
  have hconv : ∀ i : Nat, (p.front + i) % p.rep.length =
      (q.front + (i + 1)) % q.rep.length := by
    intro i
    rw [hpf, hpl, Nat.mod_add_mod]
    have : q.front + 1 + i = q.front + (i + 1) := by omega
    rw [this]
  have hshift_ne : ∀ i, i < q.length - 1 →
      (q.front + (i + 1)) % q.rep.length ≠ q.front := by
    intro i hi hc
    have hle := h.len_le
    have hc' : (q.front + (i + 1)) % q.rep.length = (q.front + 0) % q.rep.length := by
      rw [hc, hfmod]
    have := add_mod_inj (by omega) (by omega) hc'
    omega
  have hpWF : p.WF := by
    constructor
    · exact ⟨k, by rw [hpl, hk]⟩
    · rw [hpl, hpf]
      exact Nat.mod_lt _ hpos
    · rw [hpl, hpb]
      exact h.back_lt
    · rw [hpl, hplen]
      have := h.len_le
      omega
    · rw [hpb, hpl, hpf, hplen, Nat.mod_add_mod, h.back_eq]
      have : q.front + 1 + (q.length - 1) = q.front + q.length := by omega
      rw [this]
    · intro j hj hw
      obtain ⟨i, hi, hj_eq⟩ := hw
      rw [hplen] at hi
      rw [hconv i] at hj_eq
      rw [hj_eq, hnef _ (hshift_ne i hi)]
      exact h.occ _ (Nat.mod_lt _ hpos) ⟨i + 1, by omega, rfl⟩
    · intro j hj hnw
      have hjC : j < q.rep.length := by rw [hpl] at hj; exact hj
      by_cases hjf : j = q.front
      · rw [hjf, hat]
      · rw [hnef _ hjf]
        refine h.free _ hjC ?_
        rintro ⟨i, hi, hieq⟩
        cases i with
        | zero =>
          rw [hfmod] at hieq
          exact hjf hieq
        | succ i' =>
          refine hnw ⟨i', by rw [hplen]; omega, ?_⟩
          rw [hconv i']
          exact hieq
  have hpwin : p.window = q.window.drop 1 := by
    apply List.ext_getElem?
    intro i
    by_cases hi : i < q.length - 1
    · rw [Queue.window_getElem? p (by rw [hplen]; omega), hconv i,
        hnef _ (hshift_ne i hi)]
      rw [List.getElem?_drop, Queue.window_getElem? q (by omega)]
      have : 1 + i = i + 1 := by omega
      rw [this]
    · rw [Queue.window_getElem?_none p (by rw [hplen]; omega),
        List.getElem?_eq_none (by rw [List.length_drop, Queue.window_length]; omega)]
  obtain ⟨hsWF, hsw, hsl, hscap⟩ := Queue.lazyShrink_spec hpWF
  rw [hPF]
  have hval : q.window.getD 0 emptyEntry = q.rep.getD q.front emptyEntry := by
    rw [List.getD_eq_getElem?_getD, Queue.window_getElem? q h0, hfmod]
    rfl
  refine ⟨by rw [hval], hsWF, by rw [hsw, hpwin], by rw [hsl, hplen], ?_⟩
  rw [hscap]
  have hsparse : p.sparse = true ↔
      (1 < q.length - 1 ∧ q.length - 1 < q.rep.length / 4) := by
    rw [Queue.sparse_iff, hplen, hpl]
  by_cases hsp : 1 < q.length - 1 ∧ q.length - 1 < q.rep.length / 4
  · rw [if_pos (hsparse.2 hsp), if_pos hsp, hpl]
  · rw [if_neg (fun hc => hsp (hsparse.1 hc)), if_neg hsp, hpl]

/-- Full specification of `PopBack` on a well-formed nonempty queue: it
returns the last element of the logical sequence with the presence flag
set, drops it from the window, and shrinks the capacity exactly when the
remaining queue is sparse. -/
theorem Queue.PopBack_spec {T : Type} [Inhabited T] {q : Queue T} (h : q.WF)
    (h0 : 0 < q.length) :
    (q.PopBack).1 = ((q.window.getD (q.length - 1) emptyEntry).Value, true) ∧
      (q.PopBack).2.WF ∧ (q.PopBack).2.window = q.window.take (q.length - 1) ∧
      (q.PopBack).2.length = q.length - 1 ∧
      (q.PopBack).2.rep.length =
        (if 1 < q.length - 1 ∧ q.length - 1 < q.rep.length / 4 then q.rep.length / 2
          else q.rep.length) := by
  obtain ⟨k, hk⟩ := h.pow
  have hpos : 0 < q.rep.length := Queue.capacity_pos h
  have hle := h.len_le
  have hne : ¬ (q.empty = true) :=
    fun hc => absurd ((Queue.empty_iff q).1 hc) (by omega)
  have hPB : q.PopBack = (((q.rep.getD (q.dec q.back) emptyEntry).Value, true),
      (Queue.mk (q.rep.set (q.dec q.back) emptyEntry) q.front (q.dec q.back)
        (q.length - 1)).lazyShrink) := by
    unfold Queue.PopBack
    rw [if_neg hne]
  have hdb : q.dec q.back = (q.front + (q.length - 1)) % q.rep.length := by
    rw [Queue.dec_eq k hk h.back_lt, h.back_eq, Nat.mod_add_mod]
    have : q.front + q.length + (q.rep.length - 1) =
        q.front + (q.length - 1) + q.rep.length := by omega
    rw [this, Nat.add_mod_right]
  have hdbC : q.dec q.back < q.rep.length := by
    rw [hdb]
    exact Nat.mod_lt _ hpos
  set p : Queue T :=
    Queue.mk (q.rep.set (q.dec q.back) emptyEntry) q.front (q.dec q.back)
      (q.length - 1) with hp
  have hpl : p.rep.length = q.rep.length := by rw [hp]; simp
  have hplen : p.length = q.length - 1 := rfl
  have hpf : p.front = q.front := rfl
  have hpb : p.back = q.dec q.back := rfl
  have hat : p.rep.getD (q.dec q.back) emptyEntry = emptyEntry :=
    getD_set_self _ _ _ hdbC
  have hnei : ∀ j, j ≠ q.dec q.back →
      p.rep.getD j emptyEntry = q.rep.getD j emptyEntry :=
    fun j hj => getD_set_ne _ _ _ (fun hc => hj hc.symm)
  have hconv : ∀ i : Nat, (p.front + i) % p.rep.length =
      (q.front + i) % q.rep.length := by
    intro i
    rw [hpf, hpl]
  have hbne : ∀ i, i < q.length - 1 →
      (q.front + i) % q.rep.length ≠ q.dec q.back := by
    intro i hi hc
    rw [hdb] at hc
    have := add_mod_inj (by omega) (by omega) hc
    omega
  have hpWF : p.WF := by
    constructor
    · exact ⟨k, by rw [hpl, hk]⟩
    · rw [hpl, hpf]
      exact h.front_lt
    · rw [hpl, hpb]
      exact hdbC
    · rw [hpl, hplen]
      omega
    · rw [hpb, hpl, hpf, hplen, hdb]
    · intro j hj hw
      obtain ⟨i, hi, hj_eq⟩ := hw
      rw [hplen] at hi
      rw [hconv i] at hj_eq
      rw [hj_eq, hnei _ (hbne i hi)]
      exact h.occ _ (Nat.mod_lt _ hpos) ⟨i, by omega, rfl⟩
    · intro j hj hnw
      have hjC : j < q.rep.length := by rw [hpl] at hj; exact hj
      by_cases hjb : j = q.dec q.back
      · rw [hjb, hat]
      · rw [hnei _ hjb]
        refine h.free _ hjC ?_
        rintro ⟨i, hi, hieq⟩
        by_cases hilast : i = q.length - 1
        · subst hilast
          rw [← hdb] at hieq
          exact hjb hieq
        · refine hnw ⟨i, by rw [hplen]; omega, ?_⟩
          rw [hconv i]
          exact hieq
  have hpwin : p.window = q.window.take (q.length - 1) := by
    apply List.ext_getElem?
    intro i
    by_cases hi : i < q.length - 1
    · rw [Queue.window_getElem? p (by rw [hplen]; omega), hconv i,
        hnei _ (hbne i hi), List.getElem?_take, if_pos hi,
        Queue.window_getElem? q (by omega)]
    · rw [Queue.window_getElem?_none p (by rw [hplen]; omega),
        List.getElem?_eq_none
          (by rw [List.length_take, Queue.window_length]; omega)]
  obtain ⟨hsWF, hsw, hsl, hscap⟩ := Queue.lazyShrink_spec hpWF
  rw [hPB]
  have hval : q.window.getD (q.length - 1) emptyEntry =
      q.rep.getD (q.dec q.back) emptyEntry := by
    rw [List.getD_eq_getElem?_getD, Queue.window_getElem? q (by omega), ← hdb]
    rfl
  refine ⟨by rw [hval], hsWF, by rw [hsw, hpwin], by rw [hsl, hplen], ?_⟩
  rw [hscap]
  have hsparse : p.sparse = true ↔
      (1 < q.length - 1 ∧ q.length - 1 < q.rep.length / 4) := by
    rw [Queue.sparse_iff, hplen, hpl]
  by_cases hsp : 1 < q.length - 1 ∧ q.length - 1 < q.rep.length / 4
  · rw [if_pos (hsparse.2 hsp), if_pos hsp, hpl]
  · rw [if_neg (fun hc => hsp (hsparse.1 hc)), if_neg hsp, hpl]

/-! ### Reachability and sequence-level lemmas -/

/-- A pop on an empty queue returns the queue unchanged. -/
theorem Queue.PopFront_empty {T : Type} [Inhabited T] {q : Queue T}
    (h0 : q.length = 0) : q.PopFront = ((default, false), q) := by
  unfold Queue.PopFront
  rw [if_pos ((Queue.empty_iff q).2 h0)]

/-- A pop on an empty queue returns the queue unchanged. -/
theorem Queue.PopBack_empty {T : Type} [Inhabited T] {q : Queue T}
    (h0 : q.length = 0) : q.PopBack = ((default, false), q) := by
  unfold Queue.PopBack
  rw [if_pos ((Queue.empty_iff q).2 h0)]

/-- Every reachable state is well-formed. -/
theorem Queue.Reachable_WF {T : Type} [Inhabited T] {q : Queue T}
    (h : Queue.Reachable T q) : q.WF := by
  induction h with
  | new => exact Queue.WF_new T
  | init q _ _ => exact Queue.Init_WF q
  | pushFront q v _ ih => exact (Queue.PushFront_spec ih v).1
  | pushBack q v _ ih => exact (Queue.PushBack_spec ih v).1
  | popFront q _ ih =>
    by_cases h0 : 0 < q.length
    · exact (Queue.PopFront_spec ih h0).2.1
    · rw [Queue.PopFront_empty (by omega)]
      exact ih
  | popBack q _ ih =>
    by_cases h0 : 0 < q.length
    · exact (Queue.PopBack_spec ih h0).2.1
    · rw [Queue.PopBack_empty (by omega)]
      exact ih

/-- `PushBack` appends to the logical element sequence. -/
theorem Queue.toList_PushBack {T : Type} [Inhabited T] {q : Queue T} (h : q.WF)
    (v : T) : (q.PushBack v).toList = q.toList ++ [v] := by
  unfold Queue.toList
  rw [(Queue.PushBack_spec h v).2.1, List.map_append]
  rfl

/-- `PushFront` prepends to the logical element sequence. -/
theorem Queue.toList_PushFront {T : Type} [Inhabited T] {q : Queue T} (h : q.WF)
    (v : T) : (q.PushFront v).toList = v :: q.toList := by
  unfold Queue.toList
  rw [(Queue.PushFront_spec h v).2.1, List.map_cons]

/-- `PopFront` on a queue whose sequence is `x :: xs` returns `x` (present)
and leaves sequence `xs`. -/
theorem Queue.PopFront_toList {T : Type} [Inhabited T] {q : Queue T} (h : q.WF)
    {x : T} {xs : List T} (hlist : q.toList = x :: xs) :
    (q.PopFront).1 = (x, true) ∧ (q.PopFront).2.toList = xs ∧
      (q.PopFront).2.WF := by
  have hlen : 0 < q.length := by
    have hl := Queue.toList_length q
    rw [hlist] at hl
    simp at hl
    omega
  obtain ⟨hv, hWF, hwin, _, _⟩ := Queue.PopFront_spec h hlen
  have hhead : (q.window.getD 0 emptyEntry).Value = x := by
    have h1 : q.toList[0]? = some x := by rw [hlist, List.getElem?_cons_zero]
    have h2 : q.toList[0]? = some ((q.window.getD 0 emptyEntry).Value) := by
      unfold Queue.toList
      rw [List.getElem?_map,
        getElem?_eq_some_getD q.window 0 emptyEntry
          (by rw [Queue.window_length]; omega)]
      rfl
    exact (Option.some.inj (h2.symm.trans h1))
  refine ⟨by rw [hv, hhead], ?_, hWF⟩
  unfold Queue.toList
  rw [hwin, List.map_drop]
  show q.toList.drop 1 = xs
  rw [hlist, List.drop_one, List.tail_cons]

/-! ### String rendering -/

/-- Indexing the logical element sequence. -/
theorem Queue.toList_getElem {T : Type} [Inhabited T] {q : Queue T} {i : Nat}
    (hi : i < q.length) :
    q.toList[i]? =
      some ((q.rep.getD ((q.front + i) % q.rep.length) emptyEntry).Value) := by
  unfold Queue.toList
  rw [List.getElem?_map, Queue.window_getElem? q hi]
  rfl

/-- Splitting the element sequence at position `i`. -/
theorem Queue.toList_drop_cons {T : Type} [Inhabited T] {q : Queue T} {i : Nat}
    (hi : i < q.length) :
    q.toList.drop i =
      (q.rep.getD ((q.front + i) % q.rep.length) emptyEntry).Value ::
        q.toList.drop (i + 1) := by
  have hlen : i < q.toList.length := by rw [Queue.toList_length]; omega
  rw [List.drop_eq_getElem_cons hlen]
  congr 1
  have h1 := Queue.toList_getElem hi
  have h2 : q.toList[i]? = some (q.toList[i]) := List.getElem?_eq_getElem hlen
  exact Option.some.inj (h2.symm.trans h1)

/-- The `String` loop renders the remaining `n` elements starting at logical
position `i` exactly as the space-separated rendering of the corresponding
suffix of the element sequence. -/
theorem stringAux_renders {T : Type} [Inhabited T] (f : T → String) {q : Queue T}
    (h : q.WF) :
    ∀ (n i : Nat), i + n = q.length →
      Queue.stringAux f q n ((q.front + i) % q.rep.length) =
        renderSpec f (q.toList.drop i) := by
  obtain ⟨k, hk⟩ := h.pow
  intro n
  induction n with
  | zero =>
    intro i hi
    rw [List.drop_eq_nil_of_le (by rw [Queue.toList_length]; omega)]
    rfl
  | succ n ih =>
    intro i hi
    have hiq : i < q.length := by omega
    rw [Queue.toList_drop_cons hiq]
    show f (q.rep.getD ((q.front + i) % q.rep.length) emptyEntry).Value ++
        (if n = 0 then ""
          else " " ++ Queue.stringAux f q n (q.inc ((q.front + i) % q.rep.length)))
      = _
    have hinc : q.inc ((q.front + i) % q.rep.length) =
        (q.front + (i + 1)) % q.rep.length := by
      rw [Queue.inc_eq k hk, Nat.mod_add_mod]
      have : q.front + i + 1 = q.front + (i + 1) := by omega
      rw [this]
    cases n with
    | zero =>
      have hnil : q.toList.drop (i + 1) = [] := by
        apply List.drop_eq_nil_of_le
        rw [Queue.toList_length]
        omega
      rw [hnil]
      simp [renderSpec]
    | succ m =>
      have hlen2 : q.toList.drop (i + 1) ≠ [] := by
        intro hc
        have hc' := congrArg List.length hc
        rw [List.length_drop, Queue.toList_length] at hc'
        simp at hc'
        omega
      obtain ⟨r, rs, hrs⟩ := List.exists_cons_of_ne_nil hlen2
      have hIH := ih (i + 1) (by omega)
      rw [hrs] at hIH
      rw [if_neg (Nat.succ_ne_zero m), hinc, hrs, hIH]
      rw [← String.append_assoc]
      rfl

/-- `String` is the bracketed, space-separated rendering of the logical
element sequence. -/
theorem string_eq_render {T : Type} [Inhabited T] (f : T → String)
    {q : Queue T} (h : q.WF) :
    Queue.String f q = "[" ++ renderSpec f q.toList ++ "]" := by
  unfold Queue.String
  have h0 := stringAux_renders f h q.length 0 (by omega)
  rw [List.drop_zero] at h0
  have hfmod : (q.front + 0) % q.rep.length = q.front := by
    rw [Nat.add_zero, Nat.mod_eq_of_lt h.front_lt]
  rw [hfmod] at h0
  rw [h0]

/-! ### Bulk operations -/

/-- Pushing a list to the back appends it to the logical sequence. -/
theorem pushBackAll_toList {T : Type} [Inhabited T] :
    ∀ (vs : List T) (q : Queue T), q.WF →
      (pushBackAll q vs).WF ∧ (pushBackAll q vs).toList = q.toList ++ vs := by
  intro vs
  induction vs with
  | nil =>
    intro q h
    exact ⟨h, by simp [pushBackAll]⟩
  | cons v vs ih =>
    intro q h
    have h1 := (Queue.PushBack_spec h v).1
    obtain ⟨hWF, hl⟩ := ih (q.PushBack v) h1
    refine ⟨hWF, ?_⟩
    show (pushBackAll (q.PushBack v) vs).toList = _
    rw [hl, Queue.toList_PushBack h v, List.append_assoc, List.singleton_append]

/-- Popping as many elements as the sequence holds returns exactly the
sequence, all present. -/
theorem popFrontN_toList {T : Type} [Inhabited T] :
    ∀ (l : List T) (q : Queue T), q.WF → q.toList = l →
      (popFrontN q l.length).1 = l.map (fun v => (v, true)) := by
  intro l
  induction l with
  | nil =>
    intro q _ _
    rfl
  | cons x xs ih =>
    intro q hWF hlist
    obtain ⟨hv, htl, hWF'⟩ := Queue.PopFront_toList hWF hlist
    show ((q.PopFront).1 :: (popFrontN (q.PopFront).2 xs.length).1) = _
    rw [hv, ih (q.PopFront).2 hWF' htl, List.map_cons]

/-- The invariant named by the specification: `back` is `front` plus
`length` modulo the capacity, the cursors and the count are in range, and
a slot is marked occupied exactly when it is one of the `length` slots
reached from `front` by forward wrapping steps. -/
def Queue.Inv {T : Type} [Inhabited T] (q : Queue T) : Prop :=
  q.back = (q.front + q.length) % q.rep.length ∧
    q.front < q.rep.length ∧ q.back < q.rep.length ∧ q.length ≤ q.rep.length ∧
    (∀ j, j < q.rep.length →
      ((q.rep.getD j emptyEntry).ValueSet = true ↔
        ∃ i, i < q.length ∧ j = (q.front + i) % q.rep.length))

/-- Well-formedness gives the specification's invariant. -/
theorem Queue.WF_Inv {T : Type} [Inhabited T] {q : Queue T} (h : q.WF) : q.Inv := by
  refine ⟨h.back_eq, h.front_lt, h.back_lt, h.len_le, ?_⟩
  intro j hj
  constructor
  · intro hvs
    by_contra hnw
    have hfree := h.free j hj hnw
    rw [hfree] at hvs
    simp [emptyEntry] at hvs
  · exact fun hw => h.occ j hj hw

/-! ### Claims -/

/-- C1 (counterexample): the claim "after every push length is strictly
less than the capacity" fails on the first push into a fresh queue:
pushing one value into `New()` (capacity 1, not full) performs no grow and
leaves `length = 1 = capacity`. -/
theorem C1_cex : ¬ (((Queue.new Int).PushBack 7).length <
    ((Queue.new Int).PushBack 7).rep.length) := by
  decide

/-- C1 (amended): a push that finds `length` already equal to the capacity
`C` doubles the capacity to `2C` before inserting, and after every push
`length ≤ capacity` (equality can occur, e.g. on the first push into a
capacity-1 queue). -/
theorem C1_push_grow {T : Type} [Inhabited T] (q : Queue T) (v : T) (h : q.WF) :
    (q.length = q.rep.length →
        (q.PushBack v).rep.length = 2 * q.rep.length ∧
          (q.PushFront v).rep.length = 2 * q.rep.length) ∧
      (q.PushBack v).length ≤ (q.PushBack v).rep.length ∧
      (q.PushFront v).length ≤ (q.PushFront v).rep.length := by
  obtain ⟨_, _, _, hle1, hcap1⟩ := Queue.PushBack_spec h v
  obtain ⟨_, _, _, hle2, hcap2⟩ := Queue.PushFront_spec h v
  refine ⟨?_, hle1, hle2⟩
  intro hfull
  have hf : q.full = true := (Queue.full_iff q).2 hfull
  rw [hcap1, hcap2, if_pos hf]
  omega

/-- C1 (witness): the amended claim at a concrete input. -/
theorem C1_witness :
    ((Queue.new Int).PushBack 0).length ≤ ((Queue.new Int).PushBack 0).rep.length ∧
      ((Queue.new Int).PushFront 0).length ≤
        ((Queue.new Int).PushFront 0).rep.length :=
  ⟨(C1_push_grow (Queue.new Int) 0 (Queue.WF_new Int)).2.1,
    (C1_push_grow (Queue.new Int) 0 (Queue.WF_new Int)).2.2⟩

/-- C2: on an empty deque, `Front`, `Back`, `PopFront` and `PopBack` all
return the "no value present" flag with the zero value of `T`, the pops
leave the state completely unchanged, and the absent flag is
distinguishable from a legitimately stored zero value (pushing `default`
makes `Front` report presence). -/
theorem C2_empty_ops {T : Type} [Inhabited T] (q : Queue T) (h : q.length = 0) :
    q.Front = (default, false) ∧ q.Back = (default, false) ∧
      q.PopFront = ((default, false), q) ∧ q.PopBack = ((default, false), q) ∧
      ((q.PushBack default).Front).2 = true ∧
      ((q.PushFront default).Front).2 = true := by
  have he : q.empty = true := (Queue.empty_iff q).2 h
  refine ⟨?_, ?_, Queue.PopFront_empty h, Queue.PopBack_empty h, ?_, ?_⟩
  · unfold Queue.Front
    rw [if_pos he]
  · unfold Queue.Back
    rw [if_pos he]
  · unfold Queue.Front
    rw [if_neg (show ¬ ((q.PushBack default).empty = true) from
      fun hc => Nat.succ_ne_zero _ ((Queue.empty_iff _).1 hc))]
  · unfold Queue.Front
    rw [if_neg (show ¬ ((q.PushFront default).empty = true) from
      fun hc => Nat.succ_ne_zero _ ((Queue.empty_iff _).1 hc))]

/-- C2 (witness): the empty-deque behavior at a concrete input. -/
theorem C2_witness :
    (Queue.new Int).Front = (default, false) ∧
      (Queue.new Int).Back = (default, false) ∧
      (Queue.new Int).PopFront = ((default, false), Queue.new Int) ∧
      (Queue.new Int).PopBack = ((default, false), Queue.new Int) ∧
      (((Queue.new Int).PushBack default).Front).2 = true ∧
      (((Queue.new Int).PushFront default).Front).2 = true :=
  C2_empty_ops (Queue.new Int) rfl

/-- C3: after a pop that removed an element, the capacity (`C` before the
pop) is halved exactly when `1 < length` and `length < C / 4` hold for the
new length; it is unchanged when the new length is at most `1`; and the
capacity never drops below the number of stored elements. -/
theorem C3_shrink_policy {T : Type} [Inhabited T] (q : Queue T)
    (h : Queue.Reachable T q) (h0 : 0 < q.length) :
    (1 < q.length - 1 ∧ q.length - 1 < q.rep.length / 4 →
        (q.PopFront).2.rep.length = q.rep.length / 2 ∧
          (q.PopBack).2.rep.length = q.rep.length / 2) ∧
      (q.length - 1 ≤ 1 →
        (q.PopFront).2.rep.length = q.rep.length ∧
          (q.PopBack).2.rep.length = q.rep.length) ∧
      (q.PopFront).2.length ≤ (q.PopFront).2.rep.length ∧
      (q.PopBack).2.length ≤ (q.PopBack).2.rep.length := by
  have hWF := Queue.Reachable_WF h
  obtain ⟨_, hWF1, _, _, hcap1⟩ := Queue.PopFront_spec hWF h0
  obtain ⟨_, hWF2, _, _, hcap2⟩ := Queue.PopBack_spec hWF h0
  refine ⟨?_, ?_, hWF1.len_le, hWF2.len_le⟩
  · intro hsp
    constructor
    · rw [hcap1, if_pos hsp]
    · rw [hcap2, if_pos hsp]
  · intro hle1
    have hns : ¬ (1 < q.length - 1 ∧ q.length - 1 < q.rep.length / 4) := by
      omega
    constructor
    · rw [hcap1, if_neg hns]
    · rw [hcap2, if_neg hns]

/-- C3 (witness): the shrink policy at a concrete input (a one-element
queue; both pops leave the capacity unchanged). -/
theorem C3_witness :
    (1 < ((Queue.new Int).PushBack 5).length - 1 ∧
        ((Queue.new Int).PushBack 5).length - 1 <
          ((Queue.new Int).PushBack 5).rep.length / 4 →
        (((Queue.new Int).PushBack 5).PopFront).2.rep.length =
            ((Queue.new Int).PushBack 5).rep.length / 2 ∧
          (((Queue.new Int).PushBack 5).PopBack).2.rep.length =
            ((Queue.new Int).PushBack 5).rep.length / 2) ∧
      (((Queue.new Int).PushBack 5).length - 1 ≤ 1 →
        (((Queue.new Int).PushBack 5).PopFront).2.rep.length =
            ((Queue.new Int).PushBack 5).rep.length ∧
          (((Queue.new Int).PushBack 5).PopBack).2.rep.length =
            ((Queue.new Int).PushBack 5).rep.length) ∧
      (((Queue.new Int).PushBack 5).PopFront).2.length ≤
        (((Queue.new Int).PushBack 5).PopFront).2.rep.length ∧
      (((Queue.new Int).PushBack 5).PopBack).2.length ≤
        (((Queue.new Int).PushBack 5).PopBack).2.rep.length :=
  C3_shrink_policy ((Queue.new Int).PushBack 5)
    (Queue.Reachable.pushBack (Queue.new Int) 5 Queue.Reachable.new) (by decide)

/-- C4: in every state reachable from a new or (re-)initialized deque by
the mutating operations, the capacity is a power of two. -/
theorem C4_capacity_pow2 {T : Type} [Inhabited T] (q : Queue T)
    (h : Queue.Reachable T q) : ∃ k, q.rep.length = 2 ^ k :=
  (Queue.Reachable_WF h).pow

/-- C4 (witness): the power-of-two capacity at a concrete input. -/
theorem C4_witness : ∃ k, (Queue.new Int).rep.length = 2 ^ k :=
  C4_capacity_pow2 (Queue.new Int) Queue.Reachable.new

/-- C5: from any reachable state, the state itself and the result of every
operation satisfy the invariant `back = (front + length) mod C` with the
cursors below `C` and `length ≤ C` (all fields are non-negative by the
`Nat` modelling), and a slot is occupied exactly when it is one of the
`length` slots reached from `front` by forward wrapping steps. -/
theorem C5_invariant_preserved {T : Type} [Inhabited T] (q : Queue T) (v : T)
    (h : Queue.Reachable T q) :
    q.Inv ∧ (q.Init).Inv ∧ (q.PushFront v).Inv ∧ (q.PushBack v).Inv ∧
      ((q.PopFront).2).Inv ∧ ((q.PopBack).2).Inv := by
  have hWF := Queue.Reachable_WF h
  exact ⟨Queue.WF_Inv hWF, Queue.WF_Inv (Queue.Init_WF q),
    Queue.WF_Inv (Queue.Reachable_WF (Queue.Reachable.pushFront q v h)),
    Queue.WF_Inv (Queue.Reachable_WF (Queue.Reachable.pushBack q v h)),
    Queue.WF_Inv (Queue.Reachable_WF (Queue.Reachable.popFront q h)),
    Queue.WF_Inv (Queue.Reachable_WF (Queue.Reachable.popBack q h))⟩

/-- C5 (witness): the invariant at a concrete input. -/
theorem C5_witness :
    (Queue.new Int).Inv ∧ ((Queue.new Int).Init).Inv ∧
      ((Queue.new Int).PushFront 0).Inv ∧ ((Queue.new Int).PushBack 0).Inv ∧
      (((Queue.new Int).PopFront).2).Inv ∧ (((Queue.new Int).PopBack).2).Inv :=
  C5_invariant_preserved (Queue.new Int) 0 Queue.Reachable.new

/-- C6: resizing a reachable state to any size of at least `length` keeps
the logical front-to-back element sequence unchanged and normalizes the
cursors to `front = 0`, `back = length`; in the wrapped case
(`back ≤ front` with elements present) the sequence is exactly
`storage[front:C]` followed by `storage[0:back]`. -/
theorem C6_resize_sequence {T : Type} [Inhabited T] (q : Queue T) (size : Nat)
    (h : Queue.Reachable T q) (hsize : q.length ≤ size) :
    (q.resize size).toList = q.toList ∧ (q.resize size).front = 0 ∧
      (q.resize size).back = q.length ∧
      (q.back ≤ q.front → 0 < q.length →
        q.toList = (q.rep.drop q.front ++ q.rep.take q.back).map entry.Value) := by
  have hWF := Queue.Reachable_WF h
  refine ⟨Queue.resize_toList hWF hsize, rfl, rfl, ?_⟩
  intro hwrap hposl
  have hw : q.rep.length ≤ q.front + q.length := by
    by_contra hlt
    have hb : q.back = q.front + q.length := by
      rw [hWF.back_eq, Nat.mod_eq_of_lt (by omega)]
    omega
  have hb : q.front + q.length - q.rep.length = q.back := by
    have hfl := hWF.front_lt
    have hll := hWF.len_le
    rw [hWF.back_eq, mod_eq_sub_of_lt_two hw (by omega)]
  unfold Queue.toList
  rw [Queue.window_wrap q hWF.front_lt hw hWF.len_le, hb]

/-- C6 (witness): the resize behavior at a concrete input. -/
theorem C6_witness :
    ((Queue.new Int).resize 1).toList = (Queue.new Int).toList ∧
      ((Queue.new Int).resize 1).front = 0 ∧
      ((Queue.new Int).resize 1).back = (Queue.new Int).length ∧
      ((Queue.new Int).back ≤ (Queue.new Int).front → 0 < (Queue.new Int).length →
        (Queue.new Int).toList =
          ((Queue.new Int).rep.drop (Queue.new Int).front ++
            (Queue.new Int).rep.take (Queue.new Int).back).map entry.Value) :=
  C6_resize_sequence (Queue.new Int) 1 Queue.Reachable.new (by decide)

/-- C7: pushing any list of values to the back of a fresh deque and then
popping that many values from the front returns exactly the pushed values
in order, each with the presence flag set (FIFO round-trip). -/
theorem C7_fifo_roundtrip {T : Type} [Inhabited T] (vs : List T) :
    (popFrontN (pushBackAll (Queue.new T) vs) vs.length).1 =
      vs.map (fun v => (v, true)) := by
  obtain ⟨hWF, hl⟩ := pushBackAll_toList vs (Queue.new T) (Queue.WF_new T)
  have hl' : (pushBackAll (Queue.new T) vs).toList = vs := by
    rw [hl]
    rfl
  exact popFrontN_toList vs _ hWF hl'

/-- C8: `String` renders the elements from front to back in logical order,
space-separated and enclosed in square brackets, and the empty deque
renders exactly as `[]`.  `renderSpec` is the space-separated rendering
the specification describes. -/
theorem C8_string_rendering {T : Type} [Inhabited T] (f : T → String)
    (q : Queue T) (h : Queue.Reachable T q) :
    Queue.String f q = "[" ++ renderSpec f q.toList ++ "]" ∧
      (q.length = 0 → Queue.String f q = "[]") := by
  have hWF := Queue.Reachable_WF h
  refine ⟨string_eq_render f hWF, ?_⟩
  intro h0
  rw [string_eq_render f hWF]
  have hnil : q.toList = [] := by
    have hlen := Queue.toList_length q
    rw [h0] at hlen
    exact List.eq_nil_of_length_eq_zero hlen
  rw [hnil]
  rfl

/-- C8 (witness): the rendering at a concrete input. -/
theorem C8_witness :
    Queue.String toString (Queue.new Int) =
        "[" ++ renderSpec toString (Queue.new Int).toList ++ "]" ∧
      ((Queue.new Int).length = 0 →
        Queue.String toString (Queue.new Int) = "[]") :=
  C8_string_rendering toString (Queue.new Int) Queue.Reachable.new

/-- C9: the zero `Queue` value (nil backing slice) already behaves as an
initialized empty deque on the non-initializing operations: `Len` is `0`,
`Front`, `Back`, `PopFront`, `PopBack` report absence with the zero value
of `T` and do not mutate the state, and `String` renders `[]`; none of
these operations indexes the backing slice (each returns on the empty
guard before any access). -/
theorem C9_zero_queue {T : Type} [Inhabited T] (f : T → String) :
    (Queue.zero T).Len = 0 ∧
      (Queue.zero T).Front = (default, false) ∧
      (Queue.zero T).Back = (default, false) ∧
      (Queue.zero T).PopFront = ((default, false), Queue.zero T) ∧
      (Queue.zero T).PopBack = ((default, false), Queue.zero T) ∧
      Queue.String f (Queue.zero T) = "[]" :=
  ⟨rfl, rfl, rfl, Queue.PopFront_empty rfl, Queue.PopBack_empty rfl, rfl⟩

/-- C10: under the representation invariant, every index the operations
use on the backing slice is in bounds — `front` (used by `Front` and
`PopFront`), `dec back` (used by `Back` and `PopBack`), `inc front` (the
new front after `PopFront`), every `inc` step of the `String` loop, and
the write positions of `PushFront`/`PushBack` on the grown state — and in
the wrapped branch of `resize` the two copies transfer exactly `length`
entries whenever the target size is at least `length`, so no element is
truncated. -/
theorem C10_index_safety {T : Type} [Inhabited T] (q : Queue T) (h : q.WF) :
    q.front < q.rep.length ∧
      q.dec q.back < q.rep.length ∧
      q.inc q.front < q.rep.length ∧
      (∀ i, i < q.rep.length → q.inc i < q.rep.length) ∧
      (q.lazyInit.lazyGrow).dec (q.lazyInit.lazyGrow).front <
        (q.lazyInit.lazyGrow).rep.length ∧
      (q.lazyInit.lazyGrow).back < (q.lazyInit.lazyGrow).rep.length ∧
      (∀ size, q.length ≤ size → q.back ≤ q.front → 0 < q.length →
        min size (q.rep.drop q.front).length +
            min (size - min size (q.rep.drop q.front).length)
              (q.rep.take q.back).length = q.length) := by
  obtain ⟨k, hk⟩ := h.pow
  refine ⟨h.front_lt, Queue.dec_lt k hk h.back_lt, Queue.inc_lt k hk q.front,
    fun i _ => Queue.inc_lt k hk i, ?_, ?_, ?_⟩
  · rw [Queue.lazyInit_of_WF h]
    have hgWF := (Queue.lazyGrow_spec h).1
    obtain ⟨k2, hk2⟩ := hgWF.pow
    exact Queue.dec_lt k2 hk2 hgWF.front_lt
  · rw [Queue.lazyInit_of_WF h]
    exact (Queue.lazyGrow_spec h).1.back_lt
  · intro size hsize hwrap hposl
    have hw : q.rep.length ≤ q.front + q.length := by
      by_contra hlt
      have hb : q.back = q.front + q.length := by
        rw [h.back_eq, Nat.mod_eq_of_lt (by omega)]
      omega
    have hfl := h.front_lt
    have hll := h.len_le
    have hbl := h.back_lt
    have hbv : q.back = q.front + q.length - q.rep.length := by
      rw [h.back_eq, mod_eq_sub_of_lt_two hw (by omega)]
    rw [List.length_drop, List.length_take]
    omega

/-- C10 (witness): the index bounds at a concrete input. -/
theorem C10_witness :
    (Queue.new Int).front < (Queue.new Int).rep.length ∧
      (Queue.new Int).dec (Queue.new Int).back < (Queue.new Int).rep.length ∧
      (Queue.new Int).inc (Queue.new Int).front < (Queue.new Int).rep.length ∧
      (∀ i, i < (Queue.new Int).rep.length →
        (Queue.new Int).inc i < (Queue.new Int).rep.length) ∧
      ((Queue.new Int).lazyInit.lazyGrow).dec
          ((Queue.new Int).lazyInit.lazyGrow).front <
        ((Queue.new Int).lazyInit.lazyGrow).rep.length ∧
      ((Queue.new Int).lazyInit.lazyGrow).back <
        ((Queue.new Int).lazyInit.lazyGrow).rep.length ∧
      (∀ size, (Queue.new Int).length ≤ size →
        (Queue.new Int).back ≤ (Queue.new Int).front →
        0 < (Queue.new Int).length →
        min size ((Queue.new Int).rep.drop (Queue.new Int).front).length +
            min (size - min size ((Queue.new Int).rep.drop (Queue.new Int).front).length)
              ((Queue.new Int).rep.take (Queue.new Int).back).length =
          (Queue.new Int).length) :=
  C10_index_safety (Queue.new Int) (Queue.WF_new Int)
